import Mathlib

/-!
# Verification of the valida-secp256k1 ECDSA core

A shallow embedding of the repository's Rust sources:

* `src/elliptic_curve.rs` — the algebraic trait layer (`EllipticCurve`,
  `FromLeBytes`, `HasSqrt`, `IsOdd`, …), embedded here as the structure
  `CurveOps` over concrete scalar/field arithmetic;
* `src/ecdsa.rs` — the generic `ECDSA::verify` / `ECDSA::recover` engine and
  `RecoveryId`;
* `src/secp256k1.rs`, `src/secp256k1/base_field.rs`,
  `src/secp256k1/scalar_field.rs`, `src/secp256k1/constants.rs` — the
  concrete secp256k1 backend.

Machine data is embedded as follows.  A `[u8; 32]` array is represented by
its little-endian integer value (a `Nat` below `2^256`); byte slices of
unknown length are `List Nat`.  A `Secp256k1FieldElement` is represented by
its canonical value (a `Nat` below the field prime `P`), a
`Secp256k1Scalar` by the little-endian value of its 32 raw bytes, and an
`intrinsics::Secp256k1Point` by the pair of the little-endian values of its
two coordinate byte arrays, with `(0, 0)` being the `Default` value used as
the neutral element.

The point-arithmetic engine (`valida_intrinsics::comb_secp256k1`,
`smul_secp256k1`, `muls_secp256k1`, `sinv_secp256k1`) is an external crate,
out of scope of the repository; its operations are modelled from the spec's
contract (§6): `lin_comb(s1, P1, s2, P2) = s1·P1 + s2·P2`, scalar inverse
modulo the group order, and the secp256k1 group law on affine points.
Likewise the arithmetic of the external `k256` crate (`FieldElement`
addition/multiplication/negation/square root, `Scalar::reduce`) is modelled
by its documented modular semantics.
-/

/-! ## Modular exponentiation

`powMod b e m = b ^ e % m`, computed by binary exponentiation with a fuel
argument so that every definition in this file is structurally recursive and
reducible by the kernel. -/

def powModAux : Nat → Nat → Nat → Nat → Nat
  | 0, _, _, m => 1 % m
  | fuel + 1, b, e, m =>
    if e = 0 then 1 % m
    else
      let r := powModAux fuel (b * b % m) (e / 2) m
      if e % 2 = 1 then b * r % m else r

def powMod (b e m : Nat) : Nat := powModAux (e + 1) (b % m) e m

theorem mul_mod_right_arg (a c m : Nat) : a * (c % m) % m = a * c % m := by
  rw [Nat.mul_mod, Nat.mod_mod_of_dvd c (dvd_refl m), ← Nat.mul_mod]

theorem powModAux_eq (fuel : Nat) : ∀ b e m, e < 2 ^ fuel →
    powModAux fuel b e m = b ^ e % m := by
  induction fuel with
  | zero =>
    intro b e m he
    have he0 : e = 0 := by simpa using he
    subst he0
    simp [powModAux]
  | succ f ih =>
    intro b e m he
    rcases Nat.eq_zero_or_pos e with rfl | hpos
    · simp [powModAux]
    · have hne : e ≠ 0 := Nat.pos_iff_ne_zero.mp hpos
      have hlt : e / 2 < 2 ^ f := by
        have h2f : e < 2 ^ f * 2 := by
          simpa [Nat.pow_succ] using he
        omega
      have hrec := ih (b * b % m) (e / 2) m hlt
      have hbb : b * b = b ^ 2 := (sq b).symm
      rcases Nat.even_or_odd e with heven | hodd
      · have h2 : e % 2 = 0 := Nat.even_iff.mp heven
        have hsplit : (b * b) ^ (e / 2) = b ^ e := by
          rw [hbb, ← pow_mul]
          congr 1
          omega
        simp only [powModAux, if_neg hne, h2, if_neg (by omega : ¬(0 = 1))]
        rw [hrec, ← Nat.pow_mod, hsplit]
      · have h2 : e % 2 = 1 := Nat.odd_iff.mp hodd
        have hsplit : b * (b * b) ^ (e / 2) = b ^ e := by
          rw [hbb, ← pow_mul, ← pow_succ']
          congr 1
          omega
        simp only [powModAux, if_neg hne, h2]
        rw [hrec, ← Nat.pow_mod, mul_mod_right_arg, hsplit, if_pos trivial]

theorem powMod_eq (b e m : Nat) : powMod b e m = b ^ e % m := by
  have h := powModAux_eq (e + 1) (b % m) e m
    (lt_trans (Nat.lt_succ_self e) (Nat.lt_two_pow (e + 1)))
  rw [powMod, h, ← Nat.pow_mod]

/-! ## Byte strings

A `&[u8]` slice is a `List Nat`; `leNat` is its little-endian integer value
(the reading used by `U256::from_le_slice` and `FieldElement::from_bytes`
after the reversal in `from_repr`), and `bytesLE k v` is the `k`-byte
little-endian encoding of `v` (the content of a `[u8; 32]` coordinate or
scalar array whose value is `v`). -/

def leNat : List Nat → Nat
  | [] => 0
  | b :: bs => b + 256 * leNat bs

/-- Big-endian reading of a byte string (the spec's view of a message
digest). -/
def beNat : List Nat → Nat
  | [] => 0
  | b :: bs => b * 256 ^ bs.length + beNat bs

def bytesLE : Nat → Nat → List Nat
  | 0, _ => []
  | k + 1, v => v % 256 :: bytesLE k (v / 256)

theorem leNat_append (xs ys : List Nat) :
    leNat (xs ++ ys) = leNat xs + 256 ^ xs.length * leNat ys := by
  induction xs with
  | nil => simp [leNat]
  | cons b bs ih =>
    simp only [List.cons_append, leNat, List.length_cons, List.append_eq]
    rw [ih]
    ring

theorem leNat_reverse (l : List Nat) : leNat l.reverse = beNat l := by
  induction l with
  | nil => rfl
  | cons b bs ih =>
    simp only [List.reverse_cons, leNat_append, beNat, leNat, ih,
      List.length_reverse]
    ring

theorem leNat_bytesLE (k v : Nat) : leNat (bytesLE k v) = v % 256 ^ k := by
  induction k generalizing v with
  | zero => simp [bytesLE, leNat, Nat.mod_one]
  | succ j ih =>
    simp only [bytesLE, leNat, ih]
    rw [Nat.pow_succ, Nat.mul_comm (256 ^ j) 256, Nat.mod_mul]

theorem bytesLE_length (k v : Nat) : (bytesLE k v).length = k := by
  induction k generalizing v with
  | zero => rfl
  | succ j ih => simp [bytesLE, ih]

/-! ## Curve constants

`P` is the secp256k1 base-field prime, `N` the group order
(`k256::Secp256k1::ORDER`), and `gx`, `gy` the little-endian values of the
generator coordinate arrays `R_GEN` from `src/secp256k1/constants.rs`
(hex strings decoded and byte-reversed). -/

def P : Nat := 2 ^ 256 - 2 ^ 32 - 977

def N : Nat :=
  115792089237316195423570985008687907852837564279074904382605163141518161494337

def gx : Nat :=
  55066263022277343669578718895168534326250603453777594175500187360389116729240

def gy : Nat :=
  32670510020758816978083085130507043184471273380659243275938904335757337482424

/-! ## Base field (`src/secp256k1/base_field.rs`)

A `Secp256k1FieldElement` is its canonical value below `P`.  The `k256`
arithmetic it wraps is modular arithmetic modulo `P`; `normalize` produces
the canonical representative, which our values always are. -/

/-- `Add for Secp256k1FieldElement` (k256 field addition). -/
def addF (a b : Nat) : Nat := (a + b) % P

/-- `Add<u64> for Secp256k1FieldElement` (addition of a small constant). -/
def addFC (a : Nat) (c : Nat) : Nat := (a + c) % P

/-- `Mul for Secp256k1FieldElement` (k256 field multiplication). -/
def mulF (a b : Nat) : Nat := a * b % P

/-- `Neg for Secp256k1FieldElement`: `-self.0.normalize()`. -/
def negF (a : Nat) : Nat := (P - a % P) % P

/-- `IsOdd for Secp256k1FieldElement`: least bit of the canonical
representative. -/
def isOddF (a : Nat) : Bool := a % 2 == 1

/-- `HasSqrt for Secp256k1FieldElement`: `k256::FieldElement::sqrt`
computes the candidate `self ^ ((P + 1) / 4)` (here `P ≡ 3 mod 4`) and
returns it only when its square is `self`. -/
def sqrtF (a : Nat) : Option Nat :=
  let c := powMod a ((P + 1) / 4) P
  if c * c % P = a % P then some c else none

/-- `Secp256k1FieldElement::from_repr`: reverse to big-endian and
`FieldElement::from_bytes`, which rejects values not below `P`.  The input
is a 32-byte array given by its little-endian value `v < 2^256`. -/
def from_repr (v : Nat) : Option Nat :=
  if v < P then some v else none

/-- `FromLeBytes for Secp256k1FieldElement` (`from_le_bytes`): a length
check, then `from_repr`. -/
def fieldFromLeBytes (bytes : List Nat) : Option Nat :=
  if bytes.length ≠ 32 then none
  else from_repr (leNat bytes)

/-! ## Scalar field (`src/secp256k1/scalar_field.rs`)

A `Secp256k1Scalar` is the little-endian value of its 32 raw bytes.  Values
produced by the checked factories are below `N`. -/

/-- `FRAC_MODULUS_2 = Secp256k1::ORDER.shr_vartime(1)`. -/
def FRAC_MODULUS_2 : Nat := N / 2

/-- `Secp256k1Scalar::is_high`. -/
def is_high (s : Nat) : Bool := decide (FRAC_MODULUS_2 < s)

/-- `scalar_reduce`: `Scalar::reduce` of a 256-bit little-endian value,
i.e. reduction modulo the group order. -/
def scalar_reduce (v : Nat) : Nat := v % N

/-- Modelled from the spec: `valida_intrinsics::muls_secp256k1`, scalar
multiplication modulo the group order (§6 collaborator contract). -/
def muls (a b : Nat) : Nat := a * b % N

/-- Modelled from the spec: `valida_intrinsics::sinv_secp256k1`, scalar
multiplicative inverse modulo the group order, realized by Fermat
exponentiation. -/
def sinv (a : Nat) : Nat := powMod a (N - 2) N

/-- `Neg for Secp256k1Scalar`: round-trip through `k256::Scalar` negation
(`Scalar::from_repr` requires the value to be below `N`, which holds for
every scalar this code negates). -/
def negScalar (a : Nat) : Nat := (N - a % N) % N

/-- `Secp256k1Scalar::create`: accept a 32-byte array (value `v`) iff its
value is below the group order. -/
def Secp256k1Scalar.create (v : Nat) : Option Nat :=
  if v < N then some v else none

/-- Result of decoding a byte slice: the decoder can crash (a Rust panic),
reject the input (`None`), or accept a value (`Some`). -/
inductive DecodeResult where
  | crashed : DecodeResult
  | rejected : DecodeResult
  | accepted : Nat → DecodeResult
  deriving DecidableEq

/-- `FromLeBytes for Secp256k1Scalar`: `U256::from_le_slice` panics unless
the slice has exactly 32 bytes (crypto-bigint's documented behaviour); a
32-byte value is then accepted iff it is below the group order. -/
def scalarFromLeBytes (bytes : List Nat) : DecodeResult :=
  if bytes.length ≠ 32 then DecodeResult.crashed
  else if leNat bytes < N then DecodeResult.accepted (leNat bytes)
  else DecodeResult.rejected

/-- `ToLeBytes for Secp256k1Scalar`: the raw 32-byte array. -/
def to_le_bytes (s : Nat) : List Nat := bytesLE 32 s

/-! ## Points (`src/secp256k1.rs`)

An `intrinsics::Secp256k1Point` is the pair of the little-endian values of
its `x` and `y` byte arrays.  Its `Default` value — used by `HasNeutral` —
is the all-zero pair, which serves as the point at infinity. -/

abbrev Pt : Type := Nat × Nat

def ptZero : Pt := (0, 0)

/-- `GENERATOR` (from `R_GEN`). -/
def gPt : Pt := (gx, gy)

/-- Field inverse used by the affine group law of the external engine. -/
def invF (a : Nat) : Nat := powMod a (P - 2) P

/-- Modelled from the spec: the affine secp256k1 group law implemented by
the external point engine behind `comb_secp256k1`/`smul_secp256k1`
(spec §6: point addition with the canonical generator and neutral
constants; `(0, 0)` is the neutral representation). -/
def pointAdd (A B : Pt) : Pt :=
  if A = ptZero then B
  else if B = ptZero then A
  else if A.1 = B.1 then
    if (A.2 + B.2) % P = 0 then ptZero
    else
      let l := mulF (mulF 3 (mulF A.1 A.1)) (invF (mulF 2 A.2))
      let x3 := (mulF l l + (P - (A.1 + B.1) % P)) % P
      (x3, (mulF l ((A.1 + (P - x3)) % P) + (P - A.2 % P)) % P)
  else
    let l := mulF ((B.2 + (P - A.2)) % P) (invF ((B.1 + (P - A.1)) % P))
    let x3 := (mulF l l + (P - (A.1 + B.1) % P)) % P
    (x3, (mulF l ((A.1 + (P - x3)) % P) + (P - A.2 % P)) % P)

/-- Modelled from the spec: double-and-add scalar multiplication of the
external engine (`smul_secp256k1`), on 256-bit scalars. -/
def smulAux : Nat → Nat → Pt → Pt
  | 0, _, _ => ptZero
  | fuel + 1, k, A =>
    if k = 0 then ptZero
    else
      let r := smulAux fuel (k / 2) (pointAdd A A)
      if k % 2 = 1 then pointAdd A r else r

def smulPt (A : Pt) (k : Nat) : Pt := smulAux 256 k A

/-- Modelled from the spec: `valida_intrinsics::comb_secp256k1`, the joint
linear combination `lin_comb(s1, P1, s2, P2) = s1·P1 + s2·P2` (§6). -/
def combPt (s1 : Nat) (A : Pt) (s2 : Nat) (B : Pt) : Pt :=
  pointAdd (smulPt A s1) (smulPt B s2)

/-- `Secp256k1Point::create`: decode both 32-byte coordinate arrays with
`from_repr` and accept exactly when `y² = x³ + 7` holds on the normalized
values. -/
def Secp256k1Point.create (xB yB : Nat) : Option Pt :=
  match from_repr xB, from_repr yB with
  | some x, some y =>
    if mulF y y = addFC (mulF (mulF x x) x) 7 then some (x, y) else none
  | _, _ => none

/-! ## The trait layer (`src/elliptic_curve.rs`)

`ECDSA<C>` is generic in the `EllipticCurve` implementation `C`.  The
point-valued capabilities of that trait are collected in `CurveOps`; the
scalar- and field-level operations are the concrete functions above, as in
the secp256k1 instantiation. -/

structure CurveOps (Point : Type) where
  /-- `HasGenerator::generator`. -/
  generator : Point
  /-- `HasNeutral::neutral`. -/
  neutral : Point
  /-- `Mul<Scalar> for C` (scalar multiplication). -/
  mulScalar : Point → Nat → Point
  /-- `Add for C` (point addition). -/
  addPoint : Point → Point → Point
  /-- `EllipticCurve::lin_comb`. -/
  lin_comb : Nat → Point → Nat → Point → Point
  /-- `EllipticCurve::get_x_coord`. -/
  get_x_coord : Point → Nat
  /-- `TryFrom<(FieldElement, FieldElement)> for C`. -/
  try_from : Nat → Nat → Except Unit Point

/-- The secp256k1 instantiation of the trait (`impl EllipticCurve for
Secp256k1Point` together with the `Mul`/`Add` impls in
`src/secp256k1.rs`).  `Add` builds `comb_secp256k1` arguments with both
scalars equal to `ONE`; `try_from` wraps the coordinate bytes without any
validation and never fails. -/
def secpOps : CurveOps Pt where
  generator := gPt
  neutral := ptZero
  mulScalar := fun A k => smulPt A k
  addPoint := fun A B => combPt 1 A 1 B
  lin_comb := fun s1 A s2 B => combPt s1 A s2 B
  get_x_coord := fun A => scalar_reduce A.1
  try_from := fun x y => Except.ok (x, y)

/-- `EllipticCurve::reduce_hash` (secp256k1 impl): read the 32 digest bytes
big-endian — i.e. reverse the array — and reduce the little-endian value of
the result modulo the group order. -/
def reduce_hash (hash : List Nat) : Nat := scalar_reduce (leNat hash.reverse)

/-- `EllipticCurve::decompress` (secp256k1 impl). -/
def decompress (bytes : List Nat) (isYOdd : Bool) : Option Pt :=
  match fieldFromLeBytes bytes with
  | none => none
  | some fx =>
    match sqrtF (addFC (mulF (mulF fx fx) fx) 7) with
    | none => none
    | some yr =>
      let y := if isOddF yr != isYOdd then negF yr else yr
      match secpOps.try_from fx y with
      | Except.ok A => some A
      | Except.error _ => none

/-- Modelled from the spec: `EllipticCurve::curve_order_as_fe` — "the group
order `n` (interpreted as a field element)".  The trait declares it in
`src/elliptic_curve.rs` and `recover` calls it, but the secp256k1
implementation of this one method is not among the sources; since `N < P`,
the group order interpreted as a field element is `N` itself. -/
def curve_order_as_fe : Nat := N

/-! ## The ECDSA engine (`src/ecdsa.rs`) -/

/-- `RecoveryId(pub u8)`. -/
def RecoveryId.is_y_odd (rid : Nat) : Bool := Nat.land rid 1 != 0

def RecoveryId.is_x_reduced (rid : Nat) : Bool := Nat.land rid 2 != 0

namespace ECDSA

variable {Point : Type}

/-- `ECDSA::<C>::verify(hash, signature, public_key)`.  A `Signature` is
the scalar pair `(r, s)`; `C::Scalar::default()` is the zero scalar. -/
def verify (C : CurveOps Point) (hash : List Nat) (signature : Nat × Nat)
    (public_key : Point) : Bool :=
  let z := reduce_hash hash
  let r := signature.1
  let s := signature.2
  if r = 0 || s = 0 then false
  else if is_high s then false
  else
    let s_inv := sinv s
    let u1 := muls z s_inv
    let u2 := muls r s_inv
    let u1_g := C.mulScalar C.generator u1
    let u2_q := C.mulScalar public_key u2
    let p := C.addPoint u1_g u2_q
    let v := C.get_x_coord p
    v == r

/-- `ECDSA::<C>::recover(hash, signature, recovery_id)`.

The Rust function returns `Result<C, ()>`; the outer `Option` records
whether it returns at all: `none` models a panic of one of its `unwrap`
calls, `some res` a normal return with value `res`.  The `.unwrap()` on the
`FieldElement` decode of `r` and on `try_from` panic when those fail, and
the square root of `y²` (an `Option` in `base_field.rs`) is likewise
unwrapped: a non-residue panics rather than producing a typed error.  No
path constructs `Err`. -/
def recover (C : CurveOps Point) (hash : List Nat) (signature : Nat × Nat)
    (recovery_id : Nat) : Option (Except Unit Point) :=
  let r := signature.1
  let s := signature.2
  let isYOdd := RecoveryId.is_y_odd recovery_id
  let isXReduced := RecoveryId.is_x_reduced recovery_id
  match fieldFromLeBytes (to_le_bytes r) with
  | none => none
  | some fx0 =>
    let fx := if isXReduced then addF fx0 curve_order_as_fe else fx0
    match sqrtF (addFC (mulF (mulF fx fx) fx) 7) with
    | none => none
    | some y_r =>
      let y := if isOddF y_r != isYOdd then negF y_r else y_r
      match C.try_from fx y with
      | Except.error _ => none
      | Except.ok point_r =>
        let z := reduce_hash hash
        let r_inv := sinv r
        let u1 := negScalar (muls z r_inv)
        let u2 := muls s r_inv
        some (Except.ok (C.lin_comb u1 C.generator u2 point_r))

end ECDSA

/-! ## Concrete data used in witnesses and counterexamples

`hash3`, `r3`, `s3` form a valid signature of `hash3` under the public key
`gPt` (namely `u1 = 3`, `u2 = 2`, so the verification point is `5·G`);
`zeros32` is the all-zero digest. -/

def zeros32 : List Nat := List.replicate 32 0

def hash3 : List Nat :=
  [71, 81, 205, 115, 167, 10, 176, 221, 0, 142, 250, 183, 143, 138, 121,
   189, 92, 209, 71, 28, 202, 146, 104, 19, 177, 125, 64, 30, 139, 97,
   103, 214]

def r3 : Nat :=
  21505829891763648114329055987619236494102133314575206970830385799158076338148

def s3 : Nat :=
  10752914945881824057164527993809618247051066657287603485415192899579038169074

/-- An engine that agrees with `secpOps` except that its `lin_comb` is a
constant function. -/
def opsNoComb : CurveOps Pt :=
  { secpOps with lin_comb := fun _ _ _ _ => ptZero }

/-- An engine that agrees with `secpOps` except that its point addition is
a constant function. -/
def opsBadAdd : CurveOps Pt :=
  { secpOps with addPoint := fun _ _ => ptZero }

/-! ## The curve over `ZMod P` and the bridge relation

`secpW` is the Weierstrass curve `y² = x³ + 7` over `ZMod P`; `PtRel A X`
relates a machine point `A` (a pair of coordinate values, `(0,0)` meaning
infinity) with the nonsingular point `X` it denotes. -/

def secpW : WeierstrassCurve.Affine (ZMod P) := ⟨0, 0, 0, 0, 7⟩

def PtRel (A : Pt) (X : secpW.Point) : Prop :=
  (A = ptZero ∧ X = 0) ∨
  (A ≠ ptZero ∧ A.1 < P ∧ A.2 < P ∧
    ∃ h : secpW.Nonsingular (A.1 : ZMod P) (A.2 : ZMod P),
      X = WeierstrassCurve.Affine.Point.some h)

/-- Modelled from the spec: a signature `(r, s)` with recovery id `rid` on
digest `hash`, produced by a correct ECDSA signer for the key pair
`(d, d·G)` with ephemeral nonce `k`: with `R = k·G` and `z` the reduced
digest, `r` is the x-coordinate of `R` reduced into the scalar field and
nonzero, `s` satisfies `s·k ≡ z + r·d (mod N)` and is nonzero, and the
recovery id has bit 0 equal to the parity of `R`'s y-coordinate and bit 1
set iff `R`'s x-coordinate is not below the group order.  (Signing itself
is out of scope of the repository.) -/
def SignerSig (d k : Nat) (hash : List Nat) (r s rid : Nat) : Prop :=
  0 < d ∧ d < N ∧ 0 < k ∧ k < N ∧
  r = (smulPt gPt k).1 % N ∧ r ≠ 0 ∧ s < N ∧ s ≠ 0 ∧
  s * k % N = (reduce_hash hash + r * d) % N ∧
  rid = (if isOddF (smulPt gPt k).2 then 1 else 0) +
        (if N ≤ (smulPt gPt k).1 then 2 else 0)

/-! ## Basic facts about the point engine -/

set_option maxRecDepth 100000

theorem pointAdd_zero_right (A : Pt) : pointAdd A ptZero = A := by
  by_cases h : A = ptZero
  · simp [pointAdd, h]
  · simp [pointAdd, h]

theorem pointAdd_zero_left (A : Pt) : pointAdd ptZero A = A := by
  simp [pointAdd]

theorem smulAux_zero_k (fuel : Nat) (A : Pt) : smulAux fuel 0 A = ptZero := by
  cases fuel <;> simp [smulAux]

theorem smulPt_one (A : Pt) : smulPt A 1 = A := by
  show smulAux 256 1 A = A
  rw [(by rfl : (256 : Nat) = 255 + 1)]
  simp [smulAux, smulAux_zero_k, pointAdd_zero_right]

theorem smulPt_zero (A : Pt) : smulPt A 0 = ptZero := smulAux_zero_k 256 A

theorem secp_addPoint_eq (A B : Pt) : secpOps.addPoint A B = pointAdd A B := by
  show combPt 1 A 1 B = pointAdd A B
  rw [combPt, smulPt_one, smulPt_one]

/-! ## C10: the recovery id is read only through its two low bits -/

theorem is_y_odd_mask (v : Nat) :
    RecoveryId.is_y_odd (Nat.land v 3) = RecoveryId.is_y_odd v := by
  unfold RecoveryId.is_y_odd
  have h : Nat.land (Nat.land v 3) 1 = Nat.land v 1 := by
    show v &&& 3 &&& 1 = v &&& 1
    rw [Nat.land_assoc, (by decide : (3 &&& 1 : Nat) = 1)]
  rw [h]

theorem is_x_reduced_mask (v : Nat) :
    RecoveryId.is_x_reduced (Nat.land v 3) = RecoveryId.is_x_reduced v := by
  unfold RecoveryId.is_x_reduced
  have h : Nat.land (Nat.land v 3) 2 = Nat.land v 2 := by
    show v &&& 3 &&& 2 = v &&& 2
    rw [Nat.land_assoc, (by decide : (3 &&& 2 : Nat) = 2)]
  rw [h]

/-- C10: for every recovery id byte `v`, `recover` returns the same result
on `RecoveryId(v)` and on `RecoveryId(v & 3)`: only bit 0 (y-parity) and
bit 1 (x-reduction flag) of the id are ever read, and in particular no
value of the id is rejected. -/
theorem C10_recover_ignores_high_recovery_id_bits :
    ∀ (Point : Type) (C : CurveOps Point) (hash : List Nat)
      (sig : Nat × Nat) (v : Nat),
      ECDSA.recover C hash sig v = ECDSA.recover C hash sig (Nat.land v 3) := by
  intro Point C hash sig v
  unfold ECDSA.recover
  rw [is_y_odd_mask, is_x_reduced_mask]

/-! ## C8: zero signature components are rejected -/

/-- C8: `verify` returns `false` whenever the signature's `r` or `s`
component is the zero scalar, for every digest, engine and public key. -/
theorem C8_verify_rejects_zero_components :
    ∀ (Point : Type) (C : CurveOps Point) (hash : List Nat) (pk : Point)
      (r s : Nat), r = 0 ∨ s = 0 →
      ECDSA.verify C hash (r, s) pk = false := by
  intro Point C hash pk r s h
  rcases h with rfl | rfl <;> simp [ECDSA.verify]

/-- Witness for C8 at a concrete input. -/
theorem C8_verify_rejects_zero_components_witness :
    ((0 : Nat) = 0 ∨ (1 : Nat) = 0) ∧
    ECDSA.verify secpOps hash3 (0, 1) gPt = false :=
  ⟨Or.inl rfl,
   C8_verify_rejects_zero_components Pt secpOps hash3 gPt 0 1 (Or.inl rfl)⟩

/-! ## C6: scalar decoding panics on wrong-length input -/

/-- C6 (code bug): decoding a `Scalar` from a slice whose length is not 32
does not reject the input — `U256::from_le_slice` panics.  (Decoding a
`FieldElement` from the same slice rejects it as the claim states.) -/
theorem C6_scalar_decode_crashes_on_short_input :
    scalarFromLeBytes [0] = DecodeResult.crashed ∧
    fieldFromLeBytes [0] = none := by
  constructor
  · decide
  · decide

/-! ## C7: hash reduction is big-endian reduction mod the group order -/

/-- C7: `reduce_hash` of a 32-byte digest is the big-endian value of the
digest reduced modulo the group order (the bytes are reversed to
little-endian and then reduced). -/
theorem C7_reduce_hash_is_big_endian_mod_order :
    ∀ hash : List Nat, hash.length = 32 → reduce_hash hash = beNat hash % N := by
  intro hash _
  rw [reduce_hash, scalar_reduce, leNat_reverse]

/-- Witness for C7 at a concrete digest. -/
theorem C7_reduce_hash_witness :
    hash3.length = 32 ∧ reduce_hash hash3 = beNat hash3 % N :=
  ⟨by decide, C7_reduce_hash_is_big_endian_mod_order hash3 (by decide)⟩

/-! ## C5: point construction and validation -/

/-- C5 counterexample: the `try_from` conversion used by `recover` performs
no curve-equation validation: it succeeds on `(0, 1)`, which does not
satisfy `y² = x³ + 7`, while the checked factory `create` rejects that
pair.  This refutes the claim that both constructions succeed exactly on
curve points. -/
theorem C5_try_from_accepts_off_curve_point :
    secpOps.try_from 0 1 = Except.ok (0, 1) ∧
    mulF 1 1 ≠ addFC (mulF (mulF 0 0) 0) 7 ∧
    Secp256k1Point.create 0 1 = none := by
  refine ⟨rfl, ?_, ?_⟩ <;> decide

/-- C5 amended: every point built by the public factory `create` satisfies
the curve equation, and `create` succeeds exactly when the decoded
field-element pair satisfies it; the `try_from` conversion used by
`recover`, however, validates nothing and succeeds on every pair. -/
theorem C5_create_validates_try_from_does_not :
    (∀ xB yB A, Secp256k1Point.create xB yB = some A →
      A = (xB, yB) ∧ mulF A.2 A.2 = addFC (mulF (mulF A.1 A.1) A.1) 7) ∧
    (∀ xB yB, xB < P → yB < P →
      ((Secp256k1Point.create xB yB).isSome ↔
        mulF yB yB = addFC (mulF (mulF xB xB) xB) 7)) ∧
    (∀ fx fy, secpOps.try_from fx fy = Except.ok (fx, fy)) := by
  refine ⟨?_, ?_, fun fx fy => rfl⟩
  · intro xB yB A h
    unfold Secp256k1Point.create from_repr at h
    by_cases hx : xB < P
    · by_cases hy : yB < P
      · simp only [if_pos hx, if_pos hy] at h
        by_cases heq : mulF yB yB = addFC (mulF (mulF xB xB) xB) 7
        · simp only [if_pos heq] at h
          cases h
          exact ⟨rfl, heq⟩
        · simp [if_neg heq] at h
      · simp [if_neg hy] at h
    · simp [if_neg hx] at h
  · intro xB yB hx hy
    unfold Secp256k1Point.create from_repr
    simp only [if_pos hx, if_pos hy]
    by_cases heq : mulF yB yB = addFC (mulF (mulF xB xB) xB) 7
    · simp [if_pos heq, heq]
    · simp [if_neg heq, heq]

/-- Witness for C5's amended statement at the generator's coordinates. -/
theorem C5_create_validates_witness :
    Secp256k1Point.create gx gy = some (gx, gy) ∧
    ((gx, gy) = (gx, gy) ∧
      mulF (gx, gy).2 (gx, gy).2 =
        addFC (mulF (mulF (gx, gy).1 (gx, gy).1) (gx, gy).1) 7) ∧
    secpOps.try_from 0 1 = Except.ok (0, 1) := by
  have hc : Secp256k1Point.create gx gy = some (gx, gy) := by decide
  exact ⟨hc, C5_create_validates_try_from_does_not.1 gx gy (gx, gy) hc,
    C5_create_validates_try_from_does_not.2.2 0 1⟩

/-! ## C4: failure handling in `recover` -/

instance : DecidableEq (Except Unit Pt) := fun a b =>
  match a, b with
  | Except.ok x, Except.ok y =>
    if h : x = y then isTrue (by rw [h]) else isFalse (by simp [h])
  | Except.error x, Except.error y =>
    isTrue (by cases x; cases y; rfl)
  | Except.ok _, Except.error _ => isFalse (by simp)
  | Except.error _, Except.ok _ => isFalse (by simp)

set_option maxHeartbeats 2000000 in
/-- C4 (code bug): `recover` does not report reconstruction failures as a
typed recovery error.  At digest `0³²`, signature `(5, 1)` and recovery id
`0`, the value `5³ + 7 = 132` has no square root modulo `P`, and `recover`
panics on the unwrapped square root (modelled by `none`) instead of
returning `Err`.  And with recovery id `2` (the `is_x_reduced` flag), a
signature `r = P − N + 1` makes `fx + N` overflow past the field prime —
the sum is reduced modulo `P` to `1` with no overflow check (the `TODO` at
`src/ecdsa.rs:80` concedes the check is missing), and `recover` happily
returns `Ok` with a point built from the wrapped coordinate. -/
theorem C4_recover_panics_and_ignores_overflow :
    ECDSA.recover secpOps zeros32 (5, 1) 0 = none ∧
    P ≤ (P - N + 1) + N ∧
    ECDSA.recover secpOps zeros32 (P - N + 1, P - N + 1) 2 =
      some (Except.ok (1,
        29896722852569046015560700294576055776214335159245303116488692907525646231534)) := by
  refine ⟨?_, by decide, ?_⟩ <;> decide

/-! ## C2: how `verify` computes its point -/

set_option maxHeartbeats 4000000 in
/-- C2 counterexample: `verify`'s step-5 point is not obtained from
`lin_comb`.  On a concrete accepting input, replacing the engine's
`lin_comb` by a constant function leaves `verify` unchanged (it still
accepts), while replacing the engine's separate point addition by a
constant function flips the result: `verify` calls scalar multiplication
and point addition separately and never `lin_comb`. -/
theorem C2_verify_does_not_use_lin_comb_counterexample :
    ECDSA.verify opsNoComb hash3 (r3, s3) gPt = true ∧
    ECDSA.verify secpOps hash3 (r3, s3) gPt = true ∧
    ECDSA.verify opsBadAdd hash3 (r3, s3) gPt = false := by
  refine ⟨?_, ?_, ?_⟩ <;> decide

/-- C2 amended: in `verify`, the point of step 5 is computed as
`u1·G + u2·Q` by two separate scalar multiplications and one point
addition; `verify` never calls `lin_comb` (its result depends only on the
engine's generator, scalar multiplication, point addition and x-coordinate
extraction), while `recover` uses only `lin_comb` (besides `try_from` and
the generator) and never the separate operations; and on the secp256k1
engine `lin_comb(u1, G, u2, Q)` equals the separately computed
`u1·G + u2·Q`, so the two computations agree for every `u1`, `u2`, `Q`. -/
theorem C2_verify_uses_separate_operations :
    (∀ (Point : Type) (C C' : CurveOps Point),
      C.generator = C'.generator → C.mulScalar = C'.mulScalar →
      C.addPoint = C'.addPoint → C.get_x_coord = C'.get_x_coord →
      ∀ hash sig pk, ECDSA.verify C hash sig pk = ECDSA.verify C' hash sig pk) ∧
    (∀ (Point : Type) (C C' : CurveOps Point),
      C.generator = C'.generator → C.lin_comb = C'.lin_comb →
      C.try_from = C'.try_from →
      ∀ hash sig rid,
        ECDSA.recover C hash sig rid = ECDSA.recover C' hash sig rid) ∧
    (∀ u1 u2 (Q : Pt),
      secpOps.lin_comb u1 secpOps.generator u2 Q =
        secpOps.addPoint (secpOps.mulScalar secpOps.generator u1)
          (secpOps.mulScalar Q u2)) := by
  refine ⟨?_, ?_, ?_⟩
  · intro Point C C' hg hm ha hx hash sig pk
    obtain ⟨g₁, n₁, m₁, a₁, l₁, x₁, t₁⟩ := C
    obtain ⟨g₂, n₂, m₂, a₂, l₂, x₂, t₂⟩ := C'
    simp only at hg hm ha hx
    subst hg hm ha hx
    rfl
  · intro Point C C' hg hl ht hash sig rid
    obtain ⟨g₁, n₁, m₁, a₁, l₁, x₁, t₁⟩ := C
    obtain ⟨g₂, n₂, m₂, a₂, l₂, x₂, t₂⟩ := C'
    simp only at hg hl ht
    subst hg hl ht
    unfold ECDSA.recover
    dsimp only
  · intro u1 u2 Q
    show combPt u1 gPt u2 Q = combPt 1 (smulPt gPt u1) 1 (smulPt Q u2)
    rw [combPt, combPt, smulPt_one, smulPt_one]

/-- Witness for C2's amended statement: concrete engine pairs and inputs. -/
theorem C2_verify_uses_separate_operations_witness :
    ECDSA.verify secpOps hash3 (r3, s3) gPt =
      ECDSA.verify opsNoComb hash3 (r3, s3) gPt ∧
    ECDSA.recover secpOps zeros32 (5, 1) 0 =
      ECDSA.recover opsBadAdd zeros32 (5, 1) 0 ∧
    secpOps.lin_comb 3 secpOps.generator 2 gPt =
      secpOps.addPoint (secpOps.mulScalar secpOps.generator 3)
        (secpOps.mulScalar gPt 2) :=
  ⟨C2_verify_uses_separate_operations.1 Pt secpOps opsNoComb rfl rfl rfl rfl
      hash3 (r3, s3) gPt,
   C2_verify_uses_separate_operations.2.1 Pt secpOps opsBadAdd rfl rfl rfl
      zeros32 (5, 1) 0,
   C2_verify_uses_separate_operations.2.2 3 2 gPt⟩

/-! ## C3: the malleable twin is rejected -/

theorem N_odd : N % 2 = 1 := by decide

theorem verify_true_facts {Point : Type} {C : CurveOps Point}
    {hash : List Nat} {r s : Nat} {pk : Point}
    (h : ECDSA.verify C hash (r, s) pk = true) :
    r ≠ 0 ∧ s ≠ 0 ∧ is_high s = false := by
  by_cases hr : r = 0
  · rw [C8_verify_rejects_zero_components Point C hash pk r s (Or.inl hr)] at h
    cases h
  · by_cases hs : s = 0
    · rw [C8_verify_rejects_zero_components Point C hash pk r s (Or.inr hs)] at h
      cases h
    · refine ⟨hr, hs, ?_⟩
      by_cases hh : is_high s
      · simp only [ECDSA.verify, hr, hs, hh] at h
        simp at h
      · simpa using hh

theorem verify_false_of_high {Point : Type} {C : CurveOps Point}
    {hash : List Nat} {r s : Nat} {pk : Point}
    (hr : r ≠ 0) (hs : s ≠ 0) (hh : is_high s = true) :
    ECDSA.verify C hash (r, s) pk = false := by
  simp only [ECDSA.verify, hh]
  simp [hr, hs]

/-- C3: whenever `verify` accepts a signature `(r, s)`, it rejects the
malleable twin `(r, N − s)`; and a scalar is classified high exactly when
its value exceeds half the group order, i.e. iff `N < 2·s`. -/
theorem C3_malleable_twin_rejected :
    (∀ (Point : Type) (C : CurveOps Point) (hash : List Nat) (pk : Point)
      (r s : Nat),
      ECDSA.verify C hash (r, s) pk = true →
      ECDSA.verify C hash (r, N - s) pk = false) ∧
    (∀ s : Nat, is_high s = true ↔ N < 2 * s) := by
  have hhalf : N / 2 * 2 + 1 = N := by decide
  constructor
  · intro Point C hash pk r s h
    obtain ⟨hr, hs, hh⟩ := verify_true_facts h
    have hfr : FRAC_MODULUS_2 = N / 2 := rfl
    have hle : s ≤ N / 2 := by
      have h1 := of_decide_eq_false hh
      omega
    have hs0 : 0 < s := Nat.pos_of_ne_zero hs
    refine verify_false_of_high hr ?_ ?_
    · omega
    · have : FRAC_MODULUS_2 < N - s := by
        unfold FRAC_MODULUS_2
        omega
      simpa [is_high] using this
  · intro s
    unfold is_high FRAC_MODULUS_2
    rw [decide_eq_true_iff]
    omega

set_option maxHeartbeats 4000000 in
/-- Witness for C3: a concrete accepted signature whose twin is refused. -/
theorem C3_malleable_twin_rejected_witness :
    ECDSA.verify secpOps hash3 (r3, s3) gPt = true ∧
    ECDSA.verify secpOps hash3 (r3, N - s3) gPt = false ∧
    (is_high (N - s3) = true ↔ N < 2 * (N - s3)) :=
  ⟨by decide,
   C3_malleable_twin_rejected.1 Pt secpOps hash3 gPt r3 s3 (by decide),
   C3_malleable_twin_rejected.2 (N - s3)⟩

/-! ## Primality of the two moduli

`P` and `N` are certified prime by recursive Lucas (Pratt) certificates
checked through `powMod`. -/

theorem powMod_lt (b e m : Nat) (hm : 0 < m) : powMod b e m < m := by
  rw [powMod_eq]
  exact Nat.mod_lt _ hm

theorem powMod_cast {m : Nat} (b e : Nat) :
    ((powMod b e m : Nat) : ZMod m) = (b : ZMod m) ^ e := by
  rw [powMod_eq, ZMod.natCast_mod]
  push_cast
  ring

/-- A Lucas (Pratt) certificate for the primality of `Pr`: a witness `a` of
full order and the prime factor multiset `L` of `Pr - 1`. -/
theorem prime_of_cert (Pr a : Nat) (L : List Nat)
    (h2 : 2 ≤ Pr)
    (hprime : ∀ q ∈ L, Nat.Prime q)
    (hprod : L.prod = Pr - 1)
    (ha : powMod a (Pr - 1) Pr = 1 % Pr)
    (hq : ∀ q ∈ L.dedup, powMod a ((Pr - 1) / q) Pr ≠ 1 % Pr) :
    Nat.Prime Pr := by
  haveI : NeZero Pr := ⟨by omega⟩
  have hone : ((1 % Pr : Nat) : ZMod Pr) = 1 := by
    rw [ZMod.natCast_mod, Nat.cast_one]
  refine lucas_primality Pr (a : ZMod Pr) ?_ ?_
  · have := congrArg (fun x : Nat => (x : ZMod Pr)) ha
    simpa [powMod_cast, hone] using this
  · intro q hqp hqd
    have hql : q ∈ L := by
      have hd : q ∣ L.prod := hprod ▸ hqd
      obtain ⟨r, hrL, hqr⟩ := (hqp.prime.dvd_prod_iff).mp hd
      have := (Nat.prime_dvd_prime_iff_eq hqp (hprime r hrL)).mp hqr
      rwa [this]
    have hne := hq q (List.mem_dedup.mpr hql)
    intro hcon
    apply hne
    have hlt1 : powMod a ((Pr - 1) / q) Pr < Pr := powMod_lt _ _ _ (by omega)
    have hlt2 : 1 % Pr < Pr := Nat.mod_lt _ (by omega)
    have hc : ((powMod a ((Pr - 1) / q) Pr : Nat) : ZMod Pr) =
        ((1 % Pr : Nat) : ZMod Pr) := by
      rw [powMod_cast, hone, hcon]
    have := congrArg ZMod.val hc
    rwa [ZMod.val_cast_of_lt hlt1, ZMod.val_cast_of_lt hlt2] at this
theorem prat_1206781 : Nat.Prime 1206781 :=
  prime_of_cert 1206781 10
    [2, 2, 3, 5, 20113]
    (by decide)
    (by intro q hq; fin_cases hq <;> norm_num)
    (by decide)
    (by decide)
    (by decide)

theorem prat_1627771 : Nat.Prime 1627771 :=
  prime_of_cert 1627771 3
    [2, 3, 5, 29, 1871]
    (by decide)
    (by intro q hq; fin_cases hq <;> norm_num)
    (by decide)
    (by decide)
    (by decide)

theorem prat_4681609 : Nat.Prime 4681609 :=
  prime_of_cert 4681609 23
    [2, 2, 2, 3, 97, 2011]
    (by decide)
    (by intro q hq; fin_cases hq <;> norm_num)
    (by decide)
    (by decide)
    (by decide)

theorem prat_7240687 : Nat.Prime 7240687 :=
  prime_of_cert 7240687 3
    [2, 3, 1206781]
    (by decide)
    (by intro q hq; fin_cases hq <;> first | exact prat_1206781 | norm_num)
    (by decide)
    (by decide)
    (by decide)

theorem prat_13331831 : Nat.Prime 13331831 :=
  prime_of_cert 13331831 13
    [2, 5, 971, 1373]
    (by decide)
    (by intro q hq; fin_cases hq <;> norm_num)
    (by decide)
    (by decide)
    (by decide)

theorem prat_44706919 : Nat.Prime 44706919 :=
  prime_of_cert 44706919 6
    [2, 3, 797, 9349]
    (by decide)
    (by intro q hq; fin_cases hq <;> norm_num)
    (by decide)
    (by decide)
    (by decide)

theorem prat_107590001 : Nat.Prime 107590001 :=
  prime_of_cert 107590001 3
    [2, 2, 2, 2, 5, 5, 5, 5, 7, 29, 53]
    (by decide)
    (by intro q hq; fin_cases hq <;> norm_num)
    (by decide)
    (by decide)
    (by decide)

theorem prat_545358713 : Nat.Prime 545358713 :=
  prime_of_cert 545358713 5
    [2, 2, 2, 41, 59, 28181]
    (by decide)
    (by intro q hq; fin_cases hq <;> norm_num)
    (by decide)
    (by decide)
    (by decide)

theorem prat_297159362677 : Nat.Prime 297159362677 :=
  prime_of_cert 297159362677 2
    [2, 2, 3, 3, 11, 461, 1627771]
    (by decide)
    (by intro q hq; fin_cases hq <;> first | exact prat_1627771 | norm_num)
    (by decide)
    (by decide)
    (by decide)

theorem prat_107361793816595537 : Nat.Prime 107361793816595537 :=
  prime_of_cert 107361793816595537 3
    [2, 2, 2, 2, 16699, 85831, 4681609]
    (by decide)
    (by intro q hq; fin_cases hq <;> first | exact prat_4681609 | norm_num)
    (by decide)
    (by decide)
    (by decide)

theorem prat_173378833005251801 : Nat.Prime 173378833005251801 :=
  prime_of_cert 173378833005251801 6
    [2, 2, 2, 5, 5, 2621, 24809, 13331831]
    (by decide)
    (by intro q hq; fin_cases hq <;> first | exact prat_13331831 | norm_num)
    (by decide)
    (by decide)
    (by decide)

theorem prat_174723607534414371449 : Nat.Prime 174723607534414371449 :=
  prime_of_cert 174723607534414371449 3
    [2, 2, 2, 17, 59, 4051, 120233, 44706919]
    (by decide)
    (by intro q hq; fin_cases hq <;> first | exact prat_44706919 | norm_num)
    (by decide)
    (by decide)
    (by decide)

theorem prat_22149492674086928081353 : Nat.Prime 22149492674086928081353 :=
  prime_of_cert 22149492674086928081353 5
    [2, 2, 2, 3, 5323, 173378833005251801]
    (by decide)
    (by intro q hq; fin_cases hq <;> first | exact prat_173378833005251801 | norm_num)
    (by decide)
    (by decide)
    (by decide)

theorem prat_132896956044521568488119 : Nat.Prime 132896956044521568488119 :=
  prime_of_cert 132896956044521568488119 6
    [2, 3, 22149492674086928081353]
    (by decide)
    (by intro q hq; fin_cases hq <;> first | exact prat_22149492674086928081353 | norm_num)
    (by decide)
    (by decide)
    (by decide)

theorem prat_29047611873442575647497758179 : Nat.Prime 29047611873442575647497758179 :=
  prime_of_cert 29047611873442575647497758179 2
    [2, 293, 305873, 545358713, 297159362677]
    (by decide)
    (by intro q hq; fin_cases hq <;> first | exact prat_545358713 | exact prat_297159362677 | norm_num)
    (by decide)
    (by decide)
    (by decide)

theorem prat_341948486974166000522343609283189 : Nat.Prime 341948486974166000522343609283189 :=
  prime_of_cert 341948486974166000522343609283189 2
    [2, 2, 3, 3, 3, 109, 29047611873442575647497758179]
    (by decide)
    (by intro q hq; fin_cases hq <;> first | exact prat_29047611873442575647497758179 | norm_num)
    (by decide)
    (by decide)
    (by decide)

theorem prat_255515944373312847190720520512484175977 : Nat.Prime 255515944373312847190720520512484175977 :=
  prime_of_cert 255515944373312847190720520512484175977 3
    [2, 2, 2, 7, 7, 11, 1627, 2657, 4423, 41201, 96557, 7240687, 107590001]
    (by decide)
    (by intro q hq; fin_cases hq <;> first | exact prat_7240687 | exact prat_107590001 | norm_num)
    (by decide)
    (by decide)
    (by decide)

theorem prat_205115282021455665897114700593932402728804164701536103180137503955397371 : Nat.Prime 205115282021455665897114700593932402728804164701536103180137503955397371 :=
  prime_of_cert 205115282021455665897114700593932402728804164701536103180137503955397371 10
    [2, 3, 5, 29, 29, 31, 7723, 132896956044521568488119, 255515944373312847190720520512484175977]
    (by decide)
    (by intro q hq; fin_cases hq <;> first | exact prat_132896956044521568488119 | exact prat_255515944373312847190720520512484175977 | norm_num)
    (by decide)
    (by decide)
    (by decide)

theorem N_prime_cert : Nat.Prime N :=
  prime_of_cert N 7
    [2, 2, 2, 2, 2, 2, 3, 149, 631, 107361793816595537, 174723607534414371449, 341948486974166000522343609283189]
    (by decide)
    (by intro q hq; fin_cases hq <;> first | exact prat_107361793816595537 | exact prat_174723607534414371449 | exact prat_341948486974166000522343609283189 | norm_num)
    (by decide)
    (by decide)
    (by decide)

theorem P_prime_cert : Nat.Prime P :=
  prime_of_cert P 3
    [2, 3, 7, 13441, 205115282021455665897114700593932402728804164701536103180137503955397371]
    (by decide)
    (by intro q hq; fin_cases hq <;> first | exact prat_205115282021455665897114700593932402728804164701536103180137503955397371 | norm_num)
    (by decide)
    (by decide)
    (by decide)
instance fact_P_prime : Fact (Nat.Prime P) := ⟨P_prime_cert⟩

instance fact_N_prime : Fact (Nat.Prime N) := ⟨N_prime_cert⟩

/-! ## Casting machine field arithmetic into `ZMod P` -/

theorem P_pos : 0 < P := by decide

theorem seven_lt_P : 7 < P := by decide

theorem cast_mulF (a b : Nat) : ((mulF a b : Nat) : ZMod P) = a * b := by
  rw [mulF, ZMod.natCast_mod]
  push_cast
  ring

theorem cast_addF (a b : Nat) : ((addF a b : Nat) : ZMod P) = a + b := by
  rw [addF, ZMod.natCast_mod]
  push_cast
  ring

theorem cast_addFC (a c : Nat) : ((addFC a c : Nat) : ZMod P) = a + c := by
  rw [addFC, ZMod.natCast_mod]
  push_cast
  ring

theorem cast_msub (a b : Nat) :
    (((a + (P - b % P)) % P : Nat) : ZMod P) = (a : ZMod P) - b := by
  rw [ZMod.natCast_mod, Nat.cast_add,
    Nat.cast_sub (le_of_lt (Nat.mod_lt b P_pos)), ZMod.natCast_self, zero_sub,
    ZMod.natCast_mod]
  ring

theorem cast_negF (a : Nat) : ((negF a : Nat) : ZMod P) = -(a : ZMod P) := by
  have h : negF a = (0 + (P - a % P)) % P := by rw [negF, Nat.zero_add]
  rw [h, cast_msub, Nat.cast_zero, zero_sub]

theorem cast_invF (b : Nat) (hb : (b : ZMod P) ≠ 0) :
    ((invF b : Nat) : ZMod P) = (b : ZMod P)⁻¹ := by
  rw [invF, powMod_cast]
  have hp : 2 ≤ P := by decide
  have h1 : (b : ZMod P) * (b : ZMod P) ^ (P - 2) = 1 := by
    have hf := ZMod.pow_card_sub_one_eq_one hb
    have h2 : P - 2 + 1 = P - 1 := by omega
    calc (b : ZMod P) * (b : ZMod P) ^ (P - 2)
        = (b : ZMod P) ^ (P - 2 + 1) := (pow_succ' _ _).symm
      _ = (b : ZMod P) ^ (P - 1) := by rw [h2]
      _ = 1 := hf
  exact (inv_eq_of_mul_eq_one_right h1).symm

theorem natF_inj {u v : Nat} (hu : u < P) (hv : v < P)
    (h : (u : ZMod P) = v) : u = v := by
  have hval := congrArg ZMod.val h
  rwa [ZMod.val_cast_of_lt hu, ZMod.val_cast_of_lt hv] at hval

theorem natF_cast_eq_iff {u v : Nat} (hu : u < P) (hv : v < P) :
    (u : ZMod P) = (v : ZMod P) ↔ u = v :=
  ⟨natF_inj hu hv, fun h => by rw [h]⟩

theorem mulF_lt (a b : Nat) : mulF a b < P := Nat.mod_lt _ P_pos

theorem addFC_lt (a c : Nat) : addFC a c < P := Nat.mod_lt _ P_pos

/-! ## The curve `secpW` -/

theorem secpW_equation_iff (x y : ZMod P) :
    secpW.Equation x y ↔ y ^ 2 = x ^ 3 + 7 := by
  rw [WeierstrassCurve.Affine.equation_iff]
  show y ^ 2 + 0 * x * y + 0 * y = x ^ 3 + 0 * x ^ 2 + 0 * x + 7 ↔ _
  constructor <;> intro h <;> linear_combination h

theorem secpW_negY (x y : ZMod P) : secpW.negY x y = -y := by
  show -y - 0 * x - 0 = -y
  ring

theorem secpW_Δ_ne_zero : secpW.Δ ≠ 0 := by
  have hΔ : secpW.Δ = -21168 := by
    show (WeierstrassCurve.Δ secpW) = -21168
    rw [WeierstrassCurve.Δ, WeierstrassCurve.b₂, WeierstrassCurve.b₄,
      WeierstrassCurve.b₆, WeierstrassCurve.b₈]
    show -(0 ^ 2 + 4 * 0) ^ 2 *
        (0 ^ 2 * (7 : ZMod P) + 4 * 0 * 7 - 0 * 0 * 0 + 0 * 0 ^ 2 - 0 ^ 2) -
        8 * (2 * 0 + 0 * 0) ^ 3 - 27 * (0 ^ 2 + 4 * 7) ^ 2 +
        9 * (0 ^ 2 + 4 * 0) * (2 * 0 + 0 * 0) * (0 ^ 2 + 4 * 7) = -21168
    ring
  rw [hΔ]
  intro h
  have h2 : ((21168 : Nat) : ZMod P) = ((0 : Nat) : ZMod P) := by
    push_cast
    linear_combination -h
  have := natF_inj (by decide) P_pos h2
  cases this

theorem onCurve_nonsingular {x y : Nat}
    (heq : mulF y y = addFC (mulF (mulF x x) x) 7) :
    secpW.Nonsingular (x : ZMod P) (y : ZMod P) := by
  refine WeierstrassCurve.Affine.nonsingular_of_Δ_ne_zero secpW ?_ secpW_Δ_ne_zero
  rw [secpW_equation_iff]
  have := congrArg (fun t : Nat => (t : ZMod P)) heq
  simp only [cast_mulF, cast_addFC] at this
  push_cast at this
  linear_combination this

theorem onCurve_ne_ptZero {x y : Nat} (hx : x < P) (hy : y < P)
    (heq : mulF y y = addFC (mulF (mulF x x) x) 7) :
    ((x, y) : Pt) ≠ ptZero := by
  intro h
  have hx0 : x = 0 := congrArg Prod.fst h
  have hy0 : y = 0 := congrArg Prod.snd h
  subst hx0
  subst hy0
  have : (0 : Nat) = 7 % P := by
    simpa [mulF, addFC] using heq
  rw [Nat.mod_eq_of_lt seven_lt_P] at this
  cases this

/-! ## The simulation relation between machine points and curve points -/

theorem ptRel_zero : PtRel ptZero 0 := Or.inl ⟨rfl, rfl⟩

theorem some_congr {x y x' y' : ZMod P} (hx : x = x') (hy : y = y')
    {h : secpW.Nonsingular x y} {h' : secpW.Nonsingular x' y'} :
    WeierstrassCurve.Affine.Point.some h =
      WeierstrassCurve.Affine.Point.some h' := by
  subst hx
  subst hy
  rfl

theorem ptRel_unique {A : Pt} {X Y : secpW.Point}
    (h1 : PtRel A X) (h2 : PtRel A Y) : X = Y := by
  rcases h1 with ⟨hz, hX⟩ | ⟨hnz, _, _, h, hX⟩
  · rcases h2 with ⟨_, hY⟩ | ⟨hnz, _⟩
    · rw [hX, hY]
    · exact absurd hz hnz
  · rcases h2 with ⟨hz, _⟩ | ⟨_, _, _, h', hY⟩
    · exact absurd hz hnz
    · rw [hX, hY]

theorem ptRel_inj {A B : Pt} {X : secpW.Point}
    (h1 : PtRel A X) (h2 : PtRel B X) : A = B := by
  rcases h1 with ⟨hAz, hX⟩ | ⟨hAnz, hA1, hA2, h, hX⟩
  · rcases h2 with ⟨hBz, _⟩ | ⟨hBnz, _, _, h', hY⟩
    · rw [hAz, hBz]
    · rw [hX] at hY
      exact absurd hY.symm (WeierstrassCurve.Affine.Point.some_ne_zero h')
  · rcases h2 with ⟨hBz, hY⟩ | ⟨hBnz, hB1, hB2, h', hY⟩
    · rw [hY] at hX
      exact absurd hX.symm (WeierstrassCurve.Affine.Point.some_ne_zero h)
    · rw [hX] at hY
      injection hY with hxx hyy
      have hx := natF_inj hB1 hA1 (by rw [hxx])
      have hy := natF_inj hB2 hA2 (by rw [hyy])
      exact Prod.ext hx.symm hy.symm

theorem onCurveN_of_equation {x y : Nat}
    (h : secpW.Equation (x : ZMod P) (y : ZMod P)) :
    mulF y y = addFC (mulF (mulF x x) x) 7 := by
  rw [secpW_equation_iff] at h
  refine natF_inj (mulF_lt _ _) (addFC_lt _ _) ?_
  rw [cast_mulF, cast_addFC, cast_mulF, cast_mulF]
  push_cast
  linear_combination h

theorem cast_msub' (a b : Nat) (hb : b < P) :
    (((a + (P - b)) % P : Nat) : ZMod P) = (a : ZMod P) - b := by
  have h : P - b = P - b % P := by rw [Nat.mod_eq_of_lt hb]
  rw [h, cast_msub]

theorem secpW_a1 : secpW.a₁ = 0 := rfl

theorem secpW_a2 : secpW.a₂ = 0 := rfl

theorem secpW_a4 : secpW.a₄ = 0 := rfl

/-- The machine group law simulates addition of nonsingular curve points. -/
theorem ptRel_add {A B : Pt} {X Y : secpW.Point}
    (hA : PtRel A X) (hB : PtRel B Y) : PtRel (pointAdd A B) (X + Y) := by
  rcases hA with ⟨hAz, hXz⟩ | ⟨hAnz, hA1, hA2, hAns, hXs⟩
  · subst hXz
    subst hAz
    rw [pointAdd_zero_left, zero_add]
    exact hB
  · rcases hB with ⟨hBz, hYz⟩ | ⟨hBnz, hB1, hB2, hBns, hYs⟩
    · subst hYz
      subst hBz
      rw [pointAdd_zero_right, add_zero]
      exact Or.inr ⟨hAnz, hA1, hA2, hAns, hXs⟩
    · subst hXs
      subst hYs
      have hAeq := hAns.1
      have hBeq := hBns.1
      by_cases hx : A.1 = B.1
      · have hxeq : (A.1 : ZMod P) = B.1 := by rw [hx]
        by_cases hy : (A.2 + B.2) % P = 0
        · -- the points cancel
          have hy' : (A.2 : ZMod P) = secpW.negY (B.1 : ZMod P) (B.2 : ZMod P) := by
            rw [secpW_negY]
            have hc : ((A.2 + B.2 : Nat) : ZMod P) = 0 := by
              rw [← ZMod.natCast_mod, hy, Nat.cast_zero]
            push_cast at hc
            linear_combination hc
          rw [WeierstrassCurve.Affine.Point.add_of_Y_eq hxeq hy']
          unfold pointAdd
          rw [if_neg hAnz, if_neg hBnz, if_pos hx, if_pos hy]
          exact ptRel_zero
        · -- doubling
          have hyne : (A.2 : ZMod P) ≠ secpW.negY (B.1 : ZMod P) (B.2 : ZMod P) := by
            rw [secpW_negY]
            intro hcon
            apply hy
            have hc : ((A.2 + B.2 : Nat) : ZMod P) = 0 := by
              push_cast
              linear_combination hcon
            refine natF_inj (Nat.mod_lt _ P_pos) P_pos ?_
            rw [ZMod.natCast_mod, Nat.cast_zero, hc]
          have hxy : (A.1 : ZMod P) = ↑B.1 →
              (A.2 : ZMod P) ≠ secpW.negY (B.1 : ZMod P) (B.2 : ZMod P) :=
            fun _ => hyne
          have hyy : (A.2 : ZMod P) = B.2 :=
            WeierstrassCurve.Affine.Y_eq_of_Y_ne hAeq hBeq hxeq hyne
          have h2y : (2 * (A.2 : ZMod P)) ≠ 0 := by
            intro hcon
            apply hyne
            rw [secpW_negY, ← hyy]
            linear_combination hcon
          have hinv : ((mulF 2 A.2 : Nat) : ZMod P) = 2 * (A.2 : ZMod P) := by
            rw [cast_mulF]
            push_cast
            ring
          have h2yne' : ((mulF 2 A.2 : Nat) : ZMod P) ≠ 0 := by
            rw [hinv]
            exact h2y
          have hslope : secpW.slope (A.1 : ZMod P) (B.1 : ZMod P)
              (A.2 : ZMod P) (B.2 : ZMod P) =
              3 * (A.1 : ZMod P) ^ 2 * (2 * (A.2 : ZMod P))⁻¹ := by
            rw [WeierstrassCurve.Affine.slope_of_Y_ne hxeq hyne,
              secpW_negY, secpW_a1, secpW_a2, secpW_a4]
            have hden : ((A.2 : ZMod P) - -(A.2 : ZMod P)) = 2 * (A.2 : ZMod P) := by
              ring
            rw [hden, div_eq_mul_inv]
            ring_nf
          rw [WeierstrassCurve.Affine.Point.add_of_imp hxy]
          unfold pointAdd
          rw [if_neg hAnz, if_neg hBnz, if_pos hx, if_neg hy]
          dsimp only
          set l : Nat := mulF (mulF 3 (mulF A.1 A.1)) (invF (mulF 2 A.2)) with hl
          set x3 : Nat := (mulF l l + (P - (A.1 + B.1) % P)) % P with hx3
          set y3 : Nat :=
            (mulF l ((A.1 + (P - x3)) % P) + (P - A.2 % P)) % P with hy3
          have hlc : ((l : Nat) : ZMod P) =
              secpW.slope (A.1 : ZMod P) (B.1 : ZMod P) (A.2 : ZMod P) (B.2 : ZMod P) := by
            rw [hl, cast_mulF, cast_mulF, cast_mulF, cast_invF _ h2yne', hinv,
              hslope]
            push_cast
            ring
          have hx3lt : x3 < P := by
            rw [hx3]
            exact Nat.mod_lt _ P_pos
          have hy3lt : y3 < P := by
            rw [hy3]
            exact Nat.mod_lt _ P_pos
          have e1 : ((x3 : Nat) : ZMod P) =
              secpW.addX (A.1 : ZMod P) (B.1 : ZMod P)
                (secpW.slope (A.1 : ZMod P) (B.1 : ZMod P) (A.2 : ZMod P) (B.2 : ZMod P)) := by
            rw [hx3, cast_msub, cast_mulF, hlc, WeierstrassCurve.Affine.addX,
              secpW_a1, secpW_a2]
            push_cast
            ring
          have e2 : ((y3 : Nat) : ZMod P) =
              secpW.addY (A.1 : ZMod P) (B.1 : ZMod P) (A.2 : ZMod P)
                (secpW.slope (A.1 : ZMod P) (B.1 : ZMod P) (A.2 : ZMod P) (B.2 : ZMod P)) := by
            rw [hy3, cast_msub, cast_mulF, cast_msub' A.1 x3 hx3lt, hlc,
              WeierstrassCurve.Affine.addY, WeierstrassCurve.Affine.negAddY,
              secpW_negY, ← e1]
            ring
          have hns3 : secpW.Nonsingular ((x3 : Nat) : ZMod P) ((y3 : Nat) : ZMod P) := by
            rw [e1, e2]
            exact WeierstrassCurve.Affine.nonsingular_add hAns hBns hxy
          refine Or.inr ⟨onCurve_ne_ptZero hx3lt hy3lt (onCurveN_of_equation hns3.1),
            hx3lt, hy3lt, hns3, ?_⟩
          exact some_congr e1.symm e2.symm
      · -- distinct x-coordinates
        have hxne : (A.1 : ZMod P) ≠ ↑B.1 := fun hcon => hx (natF_inj hA1 hB1 hcon)
        have hxy : (A.1 : ZMod P) = ↑B.1 →
            (A.2 : ZMod P) ≠ secpW.negY (B.1 : ZMod P) (B.2 : ZMod P) :=
          fun hcon => absurd hcon hxne
        have hdne : ((B.1 : ZMod P) - A.1) ≠ 0 :=
          sub_ne_zero_of_ne (Ne.symm hxne)
        have hdcast : (((B.1 + (P - A.1)) % P : Nat) : ZMod P) =
            (B.1 : ZMod P) - A.1 := cast_msub' B.1 A.1 hA1
        have hdne' : (((B.1 + (P - A.1)) % P : Nat) : ZMod P) ≠ 0 := by
          rw [hdcast]
          exact hdne
        have hslope : secpW.slope (A.1 : ZMod P) (B.1 : ZMod P)
            (A.2 : ZMod P) (B.2 : ZMod P) =
            ((B.2 : ZMod P) - A.2) * ((B.1 : ZMod P) - A.1)⁻¹ := by
          have hba : ((A.1 : ZMod P) - B.1) ≠ 0 := sub_ne_zero_of_ne hxne
          rw [WeierstrassCurve.Affine.slope_of_X_ne hxne, div_eq_mul_inv]
          field_simp
          ring
        rw [WeierstrassCurve.Affine.Point.add_of_imp hxy]
        unfold pointAdd
        rw [if_neg hAnz, if_neg hBnz, if_neg hx]
        dsimp only
        set l : Nat := mulF ((B.2 + (P - A.2)) % P) (invF ((B.1 + (P - A.1)) % P))
          with hl
        set x3 : Nat := (mulF l l + (P - (A.1 + B.1) % P)) % P with hx3
        set y3 : Nat :=
          (mulF l ((A.1 + (P - x3)) % P) + (P - A.2 % P)) % P with hy3
        have hlc : ((l : Nat) : ZMod P) =
            secpW.slope (A.1 : ZMod P) (B.1 : ZMod P) (A.2 : ZMod P) (B.2 : ZMod P) := by
          rw [hl, cast_mulF, cast_invF _ hdne', hdcast, cast_msub' B.2 A.2 hA2,
            hslope]
        have hx3lt : x3 < P := by
          rw [hx3]
          exact Nat.mod_lt _ P_pos
        have hy3lt : y3 < P := by
          rw [hy3]
          exact Nat.mod_lt _ P_pos
        have e1 : ((x3 : Nat) : ZMod P) =
            secpW.addX (A.1 : ZMod P) (B.1 : ZMod P)
              (secpW.slope (A.1 : ZMod P) (B.1 : ZMod P) (A.2 : ZMod P) (B.2 : ZMod P)) := by
          rw [hx3, cast_msub, cast_mulF, hlc, WeierstrassCurve.Affine.addX,
            secpW_a1, secpW_a2]
          push_cast
          ring
        have e2 : ((y3 : Nat) : ZMod P) =
            secpW.addY (A.1 : ZMod P) (B.1 : ZMod P) (A.2 : ZMod P)
              (secpW.slope (A.1 : ZMod P) (B.1 : ZMod P) (A.2 : ZMod P) (B.2 : ZMod P)) := by
          rw [hy3, cast_msub, cast_mulF, cast_msub' A.1 x3 hx3lt, hlc,
            WeierstrassCurve.Affine.addY, WeierstrassCurve.Affine.negAddY,
            secpW_negY, ← e1]
          ring
        have hns3 : secpW.Nonsingular ((x3 : Nat) : ZMod P) ((y3 : Nat) : ZMod P) := by
          rw [e1, e2]
          exact WeierstrassCurve.Affine.nonsingular_add hAns hBns hxy
        refine Or.inr ⟨onCurve_ne_ptZero hx3lt hy3lt (onCurveN_of_equation hns3.1),
          hx3lt, hy3lt, hns3, ?_⟩
        exact some_congr e1.symm e2.symm

theorem ptRel_smulAux : ∀ (f k : Nat) {A : Pt} {X : secpW.Point}, k < 2 ^ f →
    PtRel A X → PtRel (smulAux f k A) (k • X) := by
  intro f
  induction f with
  | zero =>
    intro k A X hk hA
    have hk0 : k = 0 := by simpa using hk
    subst hk0
    rw [smulAux_zero_k, zero_nsmul]
    exact ptRel_zero
  | succ f ih =>
    intro k A X hk hA
    by_cases hk0 : k = 0
    · subst hk0
      rw [smulAux_zero_k, zero_nsmul]
      exact ptRel_zero
    · have hdiv : k / 2 < 2 ^ f := by
        have h2f : k < 2 ^ f * 2 := by
          simpa [Nat.pow_succ] using hk
        omega
      have hrec : PtRel (smulAux f (k / 2) (pointAdd A A)) ((k / 2) • (X + X)) :=
        ih (k / 2) hdiv (ptRel_add hA hA)
      have hXX : (k / 2) • (X + X) = (k / 2 * 2) • X := by
        rw [← two_nsmul, ← mul_nsmul, Nat.mul_comm]
      simp only [smulAux, if_neg hk0]
      by_cases hodd : k % 2 = 1
      · rw [if_pos hodd]
        have h1 : k = 1 + k / 2 * 2 := by omega
        have heq : X + (k / 2) • (X + X) = k • X := by
          rw [hXX]
          calc X + (k / 2 * 2) • X = 1 • X + (k / 2 * 2) • X := by rw [one_nsmul]
            _ = (1 + k / 2 * 2) • X := (add_nsmul X 1 (k / 2 * 2)).symm
            _ = k • X := by rw [← h1]
        rw [← heq]
        exact ptRel_add hA hrec
      · rw [if_neg hodd]
        have heq : (k / 2) • (X + X) = k • X := by
          rw [hXX]
          congr 1
          omega
        rw [← heq]
        exact hrec

theorem ptRel_smulPt {A : Pt} {X : secpW.Point} (k : Nat) (hk : k < 2 ^ 256)
    (hA : PtRel A X) : PtRel (smulPt A k) (k • X) :=
  ptRel_smulAux 256 k hk hA

/-! ## The generator and its order -/

theorem gPt_onCurve : mulF gy gy = addFC (mulF (mulF gx gx) gx) 7 := by decide

theorem ptRel_g :
    PtRel gPt (WeierstrassCurve.Affine.Point.some (onCurve_nonsingular gPt_onCurve)) :=
  Or.inr ⟨by decide, by decide, by decide, onCurve_nonsingular gPt_onCurve, rfl⟩

set_option maxHeartbeats 4000000 in
/-- `N` times the generator is the neutral element (a kernel computation
with the machine group law). -/
theorem nG_eq_zero : smulPt gPt N = ptZero := by decide

theorem N_lt_two_pow : N < 2 ^ 256 := by decide

theorem nsmul_g_zero {X : secpW.Point} (hg : PtRel gPt X) : N • X = 0 :=
  ptRel_unique (nG_eq_zero ▸ ptRel_smulPt N N_lt_two_pow hg) ptRel_zero

theorem mod_nsmul_g {X : secpW.Point} (hg : PtRel gPt X) (a : Nat) :
    (a % N) • X = a • X := by
  conv_rhs => rw [← Nat.div_add_mod a N]
  rw [add_nsmul, mul_nsmul, nsmul_g_zero hg, nsmul_zero, zero_add]

theorem g_ne_zero {X : secpW.Point} (hg : PtRel gPt X) : X ≠ 0 := by
  rcases hg with ⟨hz, _⟩ | ⟨_, _, _, h, hX⟩
  · exact absurd hz (by decide)
  · rw [hX]
    exact WeierstrassCurve.Affine.Point.some_ne_zero h

theorem smul_g_ne_zero {X : secpW.Point} (hg : PtRel gPt X) {m : Nat}
    (h0 : 0 < m) (hm : m < N) : m • X ≠ 0 := by
  intro hcon
  have hdvd1 : addOrderOf X ∣ m := addOrderOf_dvd_of_nsmul_eq_zero hcon
  have hdvd2 : addOrderOf X ∣ N := addOrderOf_dvd_of_nsmul_eq_zero (nsmul_g_zero hg)
  rcases Nat.Prime.eq_one_or_self_of_dvd N_prime_cert _ hdvd2 with h1 | hN
  · exact g_ne_zero hg (AddMonoid.addOrderOf_eq_one_iff.mp h1)
  · rw [hN] at hdvd1
    exact absurd (Nat.le_of_dvd h0 hdvd1) (not_le.mpr hm)

/-! ## C9: decompression and parity -/

theorem P_odd : P % 2 = 1 := by decide

theorem sqrtF_sound {a c : Nat} (h : sqrtF a = some c) :
    c * c % P = a % P ∧ c < P := by
  simp only [sqrtF] at h
  split at h
  · rename_i hc
    injection h with h2
    subst h2
    exact ⟨hc, powMod_lt _ _ _ P_pos⟩
  · cases h

theorem sqrtF_complete {a y : Nat} (hy : y * y % P = a % P) :
    sqrtF a = some (powMod a ((P + 1) / 4) P) := by
  have hyz : ((y : ZMod P)) ^ 2 = (a : ZMod P) := by
    have hcst := congrArg (fun t : Nat => (t : ZMod P)) hy
    simp only [ZMod.natCast_mod] at hcst
    push_cast at hcst
    linear_combination hcst
  have key : powMod a ((P + 1) / 4) P * powMod a ((P + 1) / 4) P % P = a % P := by
    refine natF_inj (Nat.mod_lt _ P_pos) (Nat.mod_lt _ P_pos) ?_
    rw [ZMod.natCast_mod, ZMod.natCast_mod]
    push_cast
    rw [powMod_cast]
    by_cases hy0 : (y : ZMod P) = 0
    · have ha0 : (a : ZMod P) = 0 := by rw [← hyz, hy0]; ring
      rw [ha0, zero_pow (by decide : (P + 1) / 4 ≠ 0), mul_zero]
    · calc (a : ZMod P) ^ ((P + 1) / 4) * (a : ZMod P) ^ ((P + 1) / 4)
          = (a : ZMod P) ^ ((P + 1) / 2) := by
            rw [← pow_add]
            congr 1
        _ = ((y : ZMod P) ^ 2) ^ ((P + 1) / 2) := by rw [hyz]
        _ = (y : ZMod P) ^ (P + 1) := by
            rw [← pow_mul]
            congr 1
        _ = (y : ZMod P) ^ (P - 1) * (y : ZMod P) ^ 2 := by
            rw [← pow_add]
            congr 1
        _ = 1 * (y : ZMod P) ^ 2 := by rw [ZMod.pow_card_sub_one_eq_one hy0]
        _ = (a : ZMod P) := by rw [one_mul, hyz]
  simp only [sqrtF]
  split
  · rfl
  · rename_i hc
    exact absurd key hc

/-- `x³ + 7` never vanishes modulo `P` (equivalently, `−7` is not a cube),
so decompression never meets the two-torsion edge case `y = 0`. -/
theorem cube7_ne_zero (x : Nat) : addFC (mulF (mulF x x) x) 7 ≠ 0 := by
  intro h
  have hz : ((x : ZMod P)) ^ 3 + 7 = 0 := by
    have hcst := congrArg (fun t : Nat => (t : ZMod P)) h
    simp only [cast_addFC, cast_mulF, Nat.cast_zero] at hcst
    push_cast at hcst
    linear_combination hcst
  by_cases hx0 : (x : ZMod P) = 0
  · rw [hx0] at hz
    have h7 : ((7 : Nat) : ZMod P) = ((0 : Nat) : ZMod P) := by
      push_cast
      linear_combination hz
    exact absurd (natF_inj seven_lt_P P_pos h7) (by decide)
  · have hM : powMod (P - 7) ((P - 1) / 3) P ≠ 1 % P := by decide
    apply hM
    refine natF_inj (powMod_lt _ _ _ P_pos) (Nat.mod_lt _ P_pos) ?_
    rw [powMod_cast, ZMod.natCast_mod, Nat.cast_one]
    have hcast : ((P - 7 : Nat) : ZMod P) = -7 := by
      rw [Nat.cast_sub (by decide : 7 ≤ P), ZMod.natCast_self]
      push_cast
      ring
    have hm7 : (-7 : ZMod P) = (x : ZMod P) ^ 3 := by linear_combination -hz
    rw [hcast, hm7, ← pow_mul,
      (by decide : 3 * ((P - 1) / 3) = P - 1),
      ZMod.pow_card_sub_one_eq_one hx0]

theorem negF_of_lt {c : Nat} (h0 : 0 < c) (hc : c < P) : negF c = P - c := by
  unfold negF
  rw [Nat.mod_eq_of_lt hc, Nat.mod_eq_of_lt (by omega)]

/-- C9: for a 32-byte little-endian field element `x`, if `x³ + 7` has a
square root modulo `P` then `decompress` returns a point with x-coordinate
`x` whose y-coordinate has exactly the requested parity; if `x³ + 7` is a
non-residue, `decompress` returns no point. -/
theorem C9_decompress_parity :
    ∀ (bytes : List Nat) (isYOdd : Bool),
      bytes.length = 32 → leNat bytes < P →
      ((∃ y, y * y % P =
          addFC (mulF (mulF (leNat bytes) (leNat bytes)) (leNat bytes)) 7) →
        ∃ A, decompress bytes isYOdd = some A ∧
          A.1 = leNat bytes ∧ isOddF A.2 = isYOdd) ∧
      ((¬ ∃ y, y * y % P =
          addFC (mulF (mulF (leNat bytes) (leNat bytes)) (leNat bytes)) 7) →
        decompress bytes isYOdd = none) := by
  intro bytes isYOdd hlen hlt
  have hf : fieldFromLeBytes bytes = some (leNat bytes) := by
    simp [fieldFromLeBytes, from_repr, hlen, hlt]
  constructor
  · rintro ⟨y, hy⟩
    have hy' : y * y % P =
        addFC (mulF (mulF (leNat bytes) (leNat bytes)) (leNat bytes)) 7 % P := by
      rw [Nat.mod_eq_of_lt (addFC_lt _ _)]
      exact hy
    have hs := sqrtF_complete hy'
    set t := addFC (mulF (mulF (leNat bytes) (leNat bytes)) (leNat bytes)) 7
      with ht
    set c := powMod t ((P + 1) / 4) P with hcdef
    obtain ⟨hcc, hclt⟩ := sqrtF_sound hs
    have htne : t ≠ 0 := cube7_ne_zero _
    have hc0 : 0 < c := by
      rcases Nat.eq_zero_or_pos c with hz | hp
      · exfalso
        apply htne
        rw [hz] at hcc
        simp only [Nat.zero_mul, Nat.zero_mod] at hcc
        rw [Nat.mod_eq_of_lt (addFC_lt _ _)] at hcc
        exact hcc.symm
      · exact hp
    have hdec : decompress bytes isYOdd =
        some (leNat bytes, if isOddF c != isYOdd then negF c else c) := by
      unfold decompress
      rw [hf]
      dsimp only
      rw [← ht, hs]
      rfl
    refine ⟨_, hdec, rfl, ?_⟩
    by_cases hmatch : isOddF c = isYOdd
    · simp [hmatch]
    · have hcond : (isOddF c != isYOdd) = true := by
        cases hcn : isOddF c <;> cases hyn : isYOdd <;> simp_all
      simp only [hcond, if_true]
      have hneg : negF c = P - c := negF_of_lt hc0 hclt
      have hpar : (P - c) % 2 = 1 - c % 2 := by
        have := P_odd
        omega
      unfold isOddF at hmatch ⊢
      rw [hneg, hpar]
      cases hyn : isYOdd
      · rw [hyn] at hmatch
        have : c % 2 = 1 := by
          rcases (by omega : c % 2 = 0 ∨ c % 2 = 1) with h0 | h1
          · exfalso
            apply hmatch
            simp [h0]
          · exact h1
        simp [this]
      · rw [hyn] at hmatch
        have : c % 2 = 0 := by
          rcases (by omega : c % 2 = 0 ∨ c % 2 = 1) with h0 | h1
          · exact h0
          · exfalso
            apply hmatch
            simp [h1]
        simp [this]
  · intro hno
    cases hs : sqrtF (addFC (mulF (mulF (leNat bytes) (leNat bytes)) (leNat bytes)) 7) with
    | none =>
      unfold decompress
      rw [hf]
      dsimp only
      rw [hs]
    | some c =>
      exact absurd ⟨c, by
        rw [(sqrtF_sound hs).1, Nat.mod_eq_of_lt (addFC_lt _ _)]⟩ hno

set_option maxHeartbeats 1000000 in
/-- Witness for C9 at the field element `x = 1` (where `x³ + 7 = 8` is a
quadratic residue). -/
theorem C9_decompress_parity_witness :
    (bytesLE 32 1).length = 32 ∧ leNat (bytesLE 32 1) < P ∧
    (∃ A, decompress (bytesLE 32 1) true = some A ∧
      A.1 = leNat (bytesLE 32 1) ∧ isOddF A.2 = true) :=
  ⟨by decide, by decide,
   (C9_decompress_parity (bytesLE 32 1) true (by decide) (by decide)).1
     ⟨29896722852569046015560700294576055776214335159245303116488692907525646231534,
      by decide⟩⟩

/-! ## C1: recovery of the signer's public key -/

theorem N_pos : 0 < N := by decide

theorem N_lt_P : N < P := by decide

theorem P_lt_two_N : P < 2 * N := by decide

theorem natN_inj {u v : Nat} (hu : u < N) (hv : v < N)
    (h : (u : ZMod N) = v) : u = v := by
  haveI : NeZero N := ⟨by decide⟩
  have hval := congrArg ZMod.val h
  rwa [ZMod.val_cast_of_lt hu, ZMod.val_cast_of_lt hv] at hval

theorem cast_muls (a b : Nat) : ((muls a b : Nat) : ZMod N) = (a : ZMod N) * b := by
  unfold muls
  rw [ZMod.natCast_mod]
  push_cast
  ring

theorem cast_negScalar (a : Nat) :
    ((negScalar a : Nat) : ZMod N) = -(a : ZMod N) := by
  unfold negScalar
  rw [ZMod.natCast_mod, Nat.cast_sub (Nat.le_of_lt (Nat.mod_lt _ N_pos)),
    ZMod.natCast_self, ZMod.natCast_mod]
  ring

theorem cast_sinv_mul {r : Nat} (hr : (r : ZMod N) ≠ 0) :
    ((sinv r : Nat) : ZMod N) * (r : ZMod N) = 1 := by
  show ((powMod r (N - 2) N : Nat) : ZMod N) * (r : ZMod N) = 1
  rw [powMod_cast]
  have h2 : N - 2 + 1 = N - 1 := by decide
  calc (r : ZMod N) ^ (N - 2) * (r : ZMod N)
      = (r : ZMod N) ^ (N - 2 + 1) := (pow_succ _ _).symm
    _ = (r : ZMod N) ^ (N - 1) := by rw [h2]
    _ = 1 := ZMod.pow_card_sub_one_eq_one hr

/-- The scalar identity behind key recovery: with `u1 = -z/r` and
`u2 = s/r`, the exponent `u1 + k·u2` reduces to the secret key `d`
whenever `s·k ≡ z + r·d (mod N)`. -/
theorem signer_scalar_eq {d k z r s : Nat}
    (hdN : d < N) (hr0 : r ≠ 0) (hrN : r < N)
    (hkey : s * k % N = (z + r * d) % N) :
    (negScalar (muls z (sinv r)) + k * muls s (sinv r)) % N = d := by
  have hrz : (r : ZMod N) ≠ 0 := by
    intro h
    apply hr0
    refine natN_inj hrN N_pos ?_
    rw [h, Nat.cast_zero]
  have hfer := cast_sinv_mul hrz
  have hkeyc : (s : ZMod N) * (k : ZMod N) = (z : ZMod N) + (r : ZMod N) * d := by
    have hc := congrArg (fun t : Nat => (t : ZMod N)) hkey
    simp only [ZMod.natCast_mod] at hc
    push_cast at hc
    exact hc
  apply natN_inj (Nat.mod_lt _ N_pos) hdN
  rw [ZMod.natCast_mod]
  push_cast
  rw [cast_negScalar, cast_muls, cast_muls]
  linear_combination ((sinv r : Nat) : ZMod N) * hkeyc + (d : ZMod N) * hfer

theorem fieldFromLeBytes_to_le_bytes {v : Nat} (h : v < P) :
    fieldFromLeBytes (to_le_bytes v) = some v := by
  have hlv : leNat (bytesLE 32 v) = v := by
    rw [leNat_bytesLE]
    exact Nat.mod_eq_of_lt (lt_trans h (by decide : P < 256 ^ 32))
  unfold fieldFromLeBytes to_le_bytes
  rw [bytesLE_length, if_neg (by decide : ¬(32 ≠ 32)), hlv]
  unfold from_repr
  rw [if_pos h]

set_option maxHeartbeats 1000000 in
/-- C1: for every key pair `(d, d·G)`, digest, and signature `(r, s)` with
its correct recovery id produced by a correct ECDSA signer (`SignerSig`),
`recover` returns `Ok` with exactly the original public key point
`d·G`. -/
theorem C1_recover_returns_signer_key
    (d k : Nat) (hash : List Nat) (r s rid : Nat)
    (hlen : hash.length = 32) (hsig : SignerSig d k hash r s rid) :
    ECDSA.recover secpOps hash (r, s) rid = some (Except.ok (smulPt gPt d)) := by
  obtain ⟨hd0, hdN, hk0, hkN, hr, hr0, hsN, hs0, hkey, hrid⟩ := hsig
  obtain ⟨Gq, hg⟩ : ∃ X : secpW.Point, PtRel gPt X := ⟨_, ptRel_g⟩
  obtain ⟨R, hRdef⟩ : ∃ R : Pt, smulPt gPt k = R := ⟨_, rfl⟩
  rw [hRdef] at hr hrid
  have hrN : r < N := by rw [hr]; exact Nat.mod_lt _ N_pos
  have hrP : r < P := lt_trans hrN N_lt_P
  have hRnz : R ≠ ptZero := by
    intro hz
    apply hr0
    rw [hr, hz]
    decide
  have hRrelX : PtRel R (k • Gq) := by
    rw [← hRdef]
    exact ptRel_smulPt k (lt_trans hkN N_lt_two_pow) hg
  obtain ⟨hR1P, hR2P, heq⟩ :
      R.1 < P ∧ R.2 < P ∧ mulF R.2 R.2 = addFC (mulF (mulF R.1 R.1) R.1) 7 := by
    rcases hRrelX with ⟨hz, _⟩ | ⟨_, h1, h2, hns, _⟩
    · exact absurd hz hRnz
    · exact ⟨h1, h2, onCurveN_of_equation hns.1⟩
  have hy20 : R.2 ≠ 0 := by
    intro h0
    apply cube7_ne_zero R.1
    rw [← heq, h0]
    decide
  have hRpos : 0 < R.2 := Nat.pos_of_ne_zero hy20
  have hfx : (if RecoveryId.is_x_reduced rid then addF r curve_order_as_fe else r)
      = R.1 := by
    by_cases hle : N ≤ R.1
    · have hxv : RecoveryId.is_x_reduced rid = true := by
        rw [hrid, if_pos hle]
        rcases Bool.eq_false_or_eq_true (isOddF R.2) with h | h <;> rw [h] <;> decide
      rw [if_pos hxv]
      have hrval : r = R.1 - N := by
        rw [hr, Nat.mod_eq_sub_mod hle,
          Nat.mod_eq_of_lt (by have h2 := P_lt_two_N; omega)]
      rw [hrval]
      show (R.1 - N + N) % P = R.1
      rw [Nat.sub_add_cancel hle, Nat.mod_eq_of_lt hR1P]
    · have hxv : RecoveryId.is_x_reduced rid = false := by
        rw [hrid, if_neg hle]
        rcases Bool.eq_false_or_eq_true (isOddF R.2) with h | h <;> rw [h] <;> decide
      rw [hxv, if_neg (by decide : ¬(false = true)), hr]
      exact Nat.mod_eq_of_lt (by omega)
  have hyod : RecoveryId.is_y_odd rid = isOddF R.2 := by
    rw [hrid]
    rcases Bool.eq_false_or_eq_true (isOddF R.2) with h | h <;> rw [h] <;>
      rcases le_or_lt N R.1 with hle | hlt
    · rw [if_pos hle]; decide
    · rw [if_neg (not_le.mpr hlt)]; decide
    · rw [if_pos hle]; decide
    · rw [if_neg (not_le.mpr hlt)]; decide
  have hy' : R.2 * R.2 % P = addFC (mulF (mulF R.1 R.1) R.1) 7 % P := by
    rw [Nat.mod_eq_of_lt (addFC_lt _ _), ← heq, mulF]
  obtain ⟨c, hsq⟩ : ∃ c, sqrtF (addFC (mulF (mulF R.1 R.1) R.1) 7) = some c :=
    ⟨_, sqrtF_complete hy'⟩
  obtain ⟨hcc, hcP⟩ := sqrtF_sound hsq
  have hccy : (c : ZMod P) * c = (R.2 : ZMod P) * R.2 := by
    have h1 : c * c % P = R.2 * R.2 % P := hcc.trans hy'.symm
    have h2 := congrArg (fun t : Nat => (t : ZMod P)) h1
    simp only [ZMod.natCast_mod] at h2
    push_cast at h2
    exact h2
  have hdich : c = R.2 ∨ c = P - R.2 := by
    have hprod : ((c : ZMod P) - R.2) * ((c : ZMod P) + R.2) = 0 := by
      linear_combination hccy
    rcases mul_eq_zero.mp hprod with h | h
    · exact Or.inl (natF_inj hcP hR2P (sub_eq_zero.mp h))
    · refine Or.inr (natF_inj hcP (by omega) ?_)
      have hcast : ((P - R.2 : Nat) : ZMod P) = -(R.2 : ZMod P) := by
        rw [Nat.cast_sub (Nat.le_of_lt hR2P), ZMod.natCast_self]
        ring
      rw [hcast]
      exact add_eq_zero_iff_eq_neg.mp h
  have hysel : (if isOddF c != RecoveryId.is_y_odd rid then negF c else c) = R.2 := by
    rw [hyod]
    rcases hdich with hceq | hcneg
    · rw [hceq]
      simp
    · rw [hcneg]
      have hpar : (isOddF (P - R.2) != isOddF R.2) = true := by
        unfold isOddF
        have hp := P_odd
        have h2 : (P - R.2) % 2 = 1 - R.2 % 2 := by omega
        rw [h2]
        rcases (by omega : R.2 % 2 = 0 ∨ R.2 % 2 = 1) with h | h <;> rw [h] <;> decide
      rw [hpar, if_pos rfl, negF_of_lt (by omega) (by omega)]
      omega
  have hfle := fieldFromLeBytes_to_le_bytes hrP
  obtain ⟨u1, hu1⟩ : ∃ u, negScalar (muls (reduce_hash hash) (sinv r)) = u := ⟨_, rfl⟩
  obtain ⟨u2, hu2⟩ : ∃ u, muls s (sinv r) = u := ⟨_, rfl⟩
  have hu1N : u1 < N := by rw [← hu1]; exact Nat.mod_lt _ N_pos
  have hu2N : u2 < N := by rw [← hu2]; exact Nat.mod_lt _ N_pos
  have hscal : (u1 + k * u2) % N = d := by
    rw [← hu1, ← hu2]
    exact signer_scalar_eq hdN hr0 hrN hkey
  have hp1 : PtRel (smulPt gPt u1) (u1 • Gq) :=
    ptRel_smulPt u1 (lt_trans hu1N N_lt_two_pow) hg
  have hp2 : PtRel (smulPt R u2) (u2 • (k • Gq)) :=
    ptRel_smulPt u2 (lt_trans hu2N N_lt_two_pow) hRrelX
  have hXs : u1 • Gq + u2 • (k • Gq) = d • Gq := by
    rw [← mul_nsmul, ← add_nsmul, ← hscal, mod_nsmul_g hg]
  have hpd : PtRel (smulPt gPt d) (d • Gq) :=
    ptRel_smulPt d (lt_trans hdN N_lt_two_pow) hg
  have hpoint : pointAdd (smulPt gPt u1) (smulPt R u2) = smulPt gPt d := by
    refine ptRel_inj ?_ hpd
    rw [← hXs]
    exact ptRel_add hp1 hp2
  unfold ECDSA.recover
  dsimp only
  rw [hfle]
  dsimp only
  rw [hfx, hsq]
  dsimp only
  rw [hysel]
  dsimp only [secpOps]
  rw [hu1, hu2, (rfl : ((R.1, R.2) : Pt) = R)]
  simp only [combPt]
  rw [hpoint]

/-- Witness for C1 at the key pair `(1, G)` with nonce `k = 1` and the
all-zero digest: the signer's signature is `(gx, gx)` with recovery id `0`,
and `recover` returns the public key `1·G`. -/
theorem C1_recover_returns_signer_key_witness :
    (zeros32.length = 32 ∧ SignerSig 1 1 zeros32 gx gx 0) ∧
    ECDSA.recover secpOps zeros32 (gx, gx) 0 = some (Except.ok (smulPt gPt 1)) := by
  have hsig : SignerSig 1 1 zeros32 gx gx 0 := by
    unfold SignerSig
    refine ⟨by decide, by decide, by decide, by decide, by decide, by decide,
      by decide, by decide, by decide, by decide⟩
  exact ⟨⟨by decide, hsig⟩,
    C1_recover_returns_signer_key 1 1 zeros32 gx gx 0 (by decide) hsig⟩
